import Mathlib

/-!
Verification of the duplicate-detection engine of the bookmark manager
(`background/duplicate-detector.js`).

Shallow embedding conventions:
* JS numbers are modelled as exact rationals (`ℚ`); the floating-point
  rounding of JS arithmetic is not modelled.  All score arithmetic in the
  source is additive with small divisions, so the rational model is exact
  on the intended inputs.
* JS timestamps (`Date.now()`, `dateVisited`, `dateAdded`) are rationals
  (milliseconds); the single clock read `Date.now()` is a parameter `now`.
  In the repository dates are `Date` objects / ISO strings, which are JS-truthy
  whenever present, so presence of a date field is modelled with `Option`.
* A JS string field that may be `undefined` is an `Option String`; JS
  truthiness of a string is `truthyStr` (present and non-empty).
* A JS object used as a map (`meta`) is an insertion-ordered association
  list with unique keys, as JS objects are.
* `Array.prototype.sort` with a consistent comparator is a stable sort, and
  a stable sort is uniquely determined by the comparator; it is modelled by
  the stable insertion sort `sortDescBy` / `sortStrings` below.
-/

/-- A JS string value that may be `undefined`/absent is truthy exactly when it
is present and non-empty. -/
def truthyStr : Option String → Bool
  | none => false
  | some s => s ≠ ""

/-- Length of a possibly-absent string (`0` when absent); used only where the
source has already guarded with a truthiness test or where `undefined` would
short-circuit the conjunction. -/
def jsLen : Option String → Nat
  | none => 0
  | some s => s.length

/-- JS `toLowerCase()`, modelled per character (ASCII case mapping). -/
def jsToLower (s : String) : String :=
  String.mk (s.toList.map Char.toLower)

/-- JS `startsWith`, on the character list. -/
def jsStartsWith (s p : String) : Bool :=
  p.toList.isPrefixOf s.toList

/-- JS `endsWith`, on the character list. -/
def jsEndsWith (s p : String) : Bool :=
  p.toList.reverse.isPrefixOf s.toList.reverse

/-- JS `trim()`: strip leading and trailing whitespace. -/
def jsTrim (s : String) : String :=
  String.mk (((s.toList.dropWhile Char.isWhitespace).reverse.dropWhile
    Char.isWhitespace).reverse)

/-- `String.prototype.split` with a one-character separator, on character
lists; always returns at least one (possibly empty) piece. -/
def splitOnChar (c : Char) : List Char → List (List Char)
  | [] => [[]]
  | x :: xs =>
    match splitOnChar c xs with
    | [] => [[]]
    | h :: t => if x = c then [] :: h :: t else (x :: h) :: t

/-- JS string `<`, lexicographic on code units. -/
def charListLt : List Char → List Char → Bool
  | [], [] => false
  | [], _ :: _ => true
  | _ :: _, [] => false
  | a :: as, b :: bs => if a < b then true else if b < a then false else charListLt as bs

/-- A stored tag; only `id` (the dedup key) and `name` matter to the
duplicate engine. -/
structure Tag where
  id : String
  name : String := ""
  deriving Repr, DecidableEq

/-- A metadata value inside a record's `meta` map: the engine only ever
stores scalars there (strings from extraction, and the derived numeric
`totalVisits` / `lastVisited` fields). -/
inductive MetaVal where
  | str : String → MetaVal
  | num : ℚ → MetaVal
  deriving Repr, DecidableEq

/-- A bookmark record as consumed by `DuplicateDetector`
(`background/duplicate-detector.js`).  Fields the engine never reads are
omitted.  `meta` is an insertion-ordered JS object (unique keys). -/
structure Bookmark where
  id : String
  url : Option String := none
  title : Option String := none
  description : Option String := none
  dateAdded : Option ℚ := none
  dateVisited : Option ℚ := none
  visitCount : Option Nat := none
  tags : Option (List Tag) := none
  category : Option String := none
  meta : Option (List (String × MetaVal)) := none
  isBroken : Bool := false
  deriving Repr, DecidableEq

/-- Milliseconds per day, the divisor `1000 * 60 * 60 * 24` in the source. -/
def msPerDay : ℚ := 1000 * 60 * 60 * 24

/-- `(bookmark.visitCount || 0)`. -/
def orZeroVisits : Option Nat → Nat
  | none => 0
  | some n => n

/-- Tag list of a record, empty when the `tags` field is absent. -/
def tagsOf (b : Bookmark) : List Tag :=
  match b.tags with
  | none => []
  | some ts => ts

/-- Title-quality summand of `scoreBookmarks`: `+10` for a title that is
truthy and non-blank after trimming, plus `min(title.length / 10, 5)`. -/
def titleScore (b : Bookmark) : ℚ :=
  match b.title with
  | none => 0
  | some t => if jsTrim t ≠ "" then 10 + min ((t.length : ℚ) / 10) 5 else 0

/-- Description-quality summand: `+8` plus `min(description.length / 20, 4)`
for a truthy, non-blank description. -/
def descScore (b : Bookmark) : ℚ :=
  match b.description with
  | none => 0
  | some d => if jsTrim d ≠ "" then 8 + min ((d.length : ℚ) / 20) 4 else 0

/-- Metadata-completeness summand: `Object.keys(meta).length * 2` when `meta`
is present (a JS object is truthy even when empty). -/
def metaScore (b : Bookmark) : ℚ :=
  match b.meta with
  | none => 0
  | some m => (m.length : ℚ) * 2

/-- Visit-recency summand: `max(0, 20 - daysSinceVisit / 30)` when
`dateVisited` is present. -/
def visitDateScore (now : ℚ) (b : Bookmark) : ℚ :=
  match b.dateVisited with
  | none => 0
  | some t => max 0 (20 - ((now - t) / msPerDay) / 30)

/-- Visit-count summand: `(visitCount || 0) * 0.5`. -/
def visitCountScore (b : Bookmark) : ℚ :=
  (orZeroVisits b.visitCount : ℚ) * (1 / 2)

/-- Tag-richness summand: `tags.length * 3` when there is at least one tag. -/
def tagScore (b : Bookmark) : ℚ :=
  match b.tags with
  | none => 0
  | some ts => if ts.length > 0 then (ts.length : ℚ) * 3 else 0

/-- Category summand: `+5` for a truthy category. -/
def categoryScore (b : Bookmark) : ℚ :=
  if truthyStr b.category then 5 else 0

/-- Freshness summand: `max(0, 15 - daysSinceAdded / 60)` when `dateAdded`
is present. -/
def addedScore (now : ℚ) (b : Bookmark) : ℚ :=
  match b.dateAdded with
  | none => 0
  | some t => max 0 (15 - ((now - t) / msPerDay) / 60)

/-- HTTPS summand: `+3` when the url is present and starts with
`https://`. -/
def httpsScore (b : Bookmark) : ℚ :=
  match b.url with
  | none => 0
  | some u => if jsStartsWith u "https://" then 3 else 0

/-- Broken-link summand: `-50` when `isBroken`. -/
def brokenPenalty (b : Bookmark) : ℚ :=
  if b.isBroken then -50 else 0

/-- The additive score accumulated by `scoreBookmarks` before the final
clamp; the summands appear in the order the source adds them. -/
def rawScore (now : ℚ) (b : Bookmark) : ℚ :=
  titleScore b + descScore b + metaScore b + visitDateScore now b +
    visitCountScore b + tagScore b + categoryScore b + addedScore now b +
    httpsScore b + brokenPenalty b

/-- Quality score of one record: `Math.max(0, score)` applied to the
accumulated sum (§4.2 of the spec; `scoreBookmarks` in the source). -/
def scoreOf (now : ℚ) (b : Bookmark) : ℚ :=
  max 0 (rawScore now b)

/-- One element of the array returned by `scoreBookmarks`:
`{ bookmark, score }`. -/
structure Scored where
  bookmark : Bookmark
  score : ℚ
  deriving Repr, DecidableEq

/-- `scoreBookmarks(bookmarks)`: score every member, preserving order. -/
def scoreBookmarks (now : ℚ) (bookmarks : List Bookmark) : List Scored :=
  bookmarks.map (fun b => { bookmark := b, score := scoreOf now b })

/-- Insert `x` into a list sorted descending by `key`, placing `x` before the
first element whose key is not greater: with `sortDescBy` this realizes the
unique stable descending order of a JS `sort` with comparator
`(a, b) => key(b) - key(a)`. -/
def insertDescBy {α : Type} (key : α → ℚ) (x : α) : List α → List α
  | [] => [x]
  | y :: ys => if key y > key x then y :: insertDescBy key x ys else x :: y :: ys

/-- Stable descending sort by `key` (ties keep encounter order). -/
def sortDescBy {α : Type} (key : α → ℚ) : List α → List α
  | [] => []
  | x :: xs => insertDescBy key x (sortDescBy key xs)

/-- First element of `l` attaining the maximal value of `key` — the spec's
"top-scored member" under a stable descending sort ("first-seen wins"). -/
def firstMaxBy {α : Type} (key : α → ℚ) : List α → Option α
  | [] => none
  | x :: xs =>
    match firstMaxBy key xs with
    | none => some x
    | some m => if key m > key x then some m else some x

/-! ### The URL model

`normalizeUrl` calls the platform's `new URL(...)` / `URLSearchParams`
builtins, which are not repository code.  `jsURL` models the WHATWG URL
parser restricted to absolute `http://` / `https://` URLs: any other input
is treated as a parse failure (the `catch` branch of the source).  Percent-
decoding, `.`/`..` path normalization, host character validation and
non-http schemes are outside the model; no claim below depends on them. -/

/-- Parsed components as exposed by the `URL` builtin: `hash` and `search`
include their leading `#` / `?` and are `""` when absent or empty. -/
structure URLParts where
  hostname : String
  pathname : String
  hash : String
  search : String
  deriving Repr, DecidableEq

/-- Split a character list at the first character satisfying `p`; the
delimiter (when found) starts the second component. -/
def splitAtFirst (p : Char → Bool) : List Char → (List Char × List Char)
  | [] => ([], [])
  | c :: cs =>
    if p c then ([], c :: cs)
    else
      let r := splitAtFirst p cs
      (c :: r.1, r.2)

/-- Authority after the last `@` (the WHATWG parser takes the host after the
userinfo). -/
def afterLastAt (cs : List Char) : List Char :=
  (cs.reverse.takeWhile (fun c => c ≠ '@')).reverse

/-- Strip a case-insensitive `http://` or `https://` scheme, returning the
remainder; `none` when the input has no such scheme (modelled parse
failure). -/
def schemeSplit (s : String) : Option String :=
  let ls := jsToLower s
  if jsStartsWith ls "https://" then some (s.drop 8)
  else if jsStartsWith ls "http://" then some (s.drop 7)
  else none

/-- Model of `new URL(url)` for absolute http(s) URLs: extract host (after
userinfo, before a digits-only port), path (defaulting to `/`), fragment and
query.  Fails on a missing scheme, an empty host, or a non-numeric port,
as the WHATWG parser does. -/
def jsURL (url : String) : Option URLParts :=
  match schemeSplit url with
  | none => none
  | some rest =>
    let cs := rest.toList
    let auth := splitAtFirst (fun c => c = '/' || c = '?' || c = '#') cs
    let hostPort := afterLastAt auth.1
    let hp := splitAtFirst (fun c => c = ':') hostPort
    let portOk :=
      match hp.2 with
      | [] => true
      | _ :: ds => ds.all Char.isDigit
    if hp.1 = [] || !portOk then none
    else
      let afterHash := splitAtFirst (fun c => c = '#') auth.2
      let beforeHash := splitAtFirst (fun c => c = '?') afterHash.1
      let pathname := if beforeHash.1 = [] then "/" else String.mk beforeHash.1
      let hash :=
        match afterHash.2 with
        | [] => ""
        | [_] => ""
        | l => String.mk l
      let search :=
        match beforeHash.2 with
        | [] => ""
        | [_] => ""
        | l => String.mk l
      some
        { hostname := jsToLower (String.mk hp.1)
          pathname := pathname
          hash := hash
          search := search }

/-- Model of iterating `new URLSearchParams(search)`: drop a leading `?`,
split on `&`, skip empty pieces, split each piece at its first `=` (missing
value becomes `""`).  Percent/plus decoding is not modelled. -/
def parseSearch (search : String) : List (String × String) :=
  if search = "" then []
  else
    let body := if jsStartsWith search "?" then search.drop 1 else search
    (splitOnChar '&' body.toList).filterMap fun piece =>
      if piece = [] then none
      else
        match splitOnChar '=' piece with
        | [] => none
        | k :: rest =>
          some (String.mk k, String.intercalate "=" (rest.map String.mk))

/-- The fixed tracking-parameter blocklist of the source. -/
def trackingParams : List String :=
  ["utm_source", "utm_medium", "utm_campaign", "utm_term", "utm_content",
   "fbclid", "gclid"]

/-- Ascending lexicographic insertion, modelling the default string
comparator of `Array.prototype.sort`. -/
def insertStr (x : String) : List String → List String
  | [] => [x]
  | y :: ys => if charListLt y.toList x.toList then y :: insertStr x ys else x :: y :: ys

/-- `cleanParams.sort()`: ascending lexicographic sort. -/
def sortStrings : List String → List String
  | [] => []
  | x :: xs => insertStr x (sortStrings xs)

/-- One application of the regex `/^https?:\/\//` replacement. -/
def stripScheme (s : String) : String :=
  if jsStartsWith s "https://" then s.drop 8
  else if jsStartsWith s "http://" then s.drop 7
  else s

/-- One application of the regex `/^www\./` replacement. -/
def stripWww (s : String) : String :=
  if jsStartsWith s "www." then s.drop 4 else s

/-- One application of the regex `/\/$/` replacement. -/
def stripSlash (s : String) : String :=
  if jsEndsWith s "/" then s.dropRight 1 else s

/-- The `catch` branch of `normalizeUrl`:
`url.toLowerCase().replace(/^https?:\/\//, '').replace(/^www\./, '').replace(/\/$/, '')`. -/
def fallbackNormalize (url : String) : String :=
  stripSlash (stripWww (stripScheme (jsToLower url)))

/-- `normalizeUrl(url)` (§4.1): on parse success build
lowercased-host (www-stripped) + path (trailing slash dropped unless root,
lowercased) + lowercased fragment + sorted non-tracking query; on parse
failure fall back to `fallbackNormalize`. -/
def normalizeUrl (url : String) : String :=
  match jsURL url with
  | none => fallbackNormalize url
  | some u =>
    let normalized := stripWww (jsToLower u.hostname)
    let path :=
      if u.pathname.length > 1 && jsEndsWith u.pathname "/" then
        u.pathname.dropRight 1
      else u.pathname
    let normalized := normalized ++ jsToLower path
    let normalized := if u.hash ≠ "" then normalized ++ jsToLower u.hash else normalized
    let cleanParams :=
      (parseSearch u.search).filterMap fun kv =>
        if trackingParams.contains (jsToLower kv.1) then none
        else some (kv.1 ++ "=" ++ kv.2)
    if cleanParams ≠ [] then
      normalized ++ "?" ++ String.intercalate "&" (sortStrings cleanParams)
    else normalized

/-! ### Duplicate grouping (`groupDuplicates`) -/

/-- A duplicate group as built by `groupDuplicates`. -/
structure DupGroup where
  id : String
  normalizedUrl : String
  bookmarks : List Bookmark
  deriving Repr, DecidableEq

/-- `normalizedUrl.replace(/[^a-zA-Z0-9]/g, '_')`. -/
def sanitizeKey (s : String) : String :=
  String.mk (s.toList.map (fun c => if c.isAlphanum then c else '_'))

/-- Grouping key of a record: `none` when the record is skipped
(`if (!bookmark.url) return;` — absent or empty url), otherwise the
normalized url. -/
def groupKey (b : Bookmark) : Option String :=
  match b.url with
  | none => none
  | some u => if u = "" then none else some (normalizeUrl u)

/-- Append a bookmark to the group keyed `k`, or create that group at the
end — the insertion-order behaviour of the JS `Map` in `groupDuplicates`. -/
def addToGroups (gs : List DupGroup) (k : String) (b : Bookmark) : List DupGroup :=
  match gs with
  | [] => [{ id := "dup_" ++ sanitizeKey k, normalizedUrl := k, bookmarks := [b] }]
  | g :: rest =>
    if g.normalizedUrl = k then
      { g with bookmarks := g.bookmarks ++ [b] } :: rest
    else g :: addToGroups rest k b

/-- One step of the `bookmarks.forEach` loop of `groupDuplicates`. -/
def groupStep (gs : List DupGroup) (b : Bookmark) : List DupGroup :=
  match groupKey b with
  | none => gs
  | some k => addToGroups gs k b

/-- `groupDuplicates(bookmarks)`: group by normalized url in encounter
order, then keep only groups with more than one member. -/
def groupDuplicates (bookmarks : List Bookmark) : List DupGroup :=
  (bookmarks.foldl groupStep []).filter (fun g => g.bookmarks.length > 1)

/-! ### Resolution recommender (`recommendAction` and helpers) -/

/-- `determineAction(bookmarks)`: the priority policy over the whole
group. -/
def determineAction (bookmarks : List Bookmark) : String :=
  if bookmarks.any (fun b =>
      truthyStr b.title && truthyStr b.description &&
        (b.tags matches some _) && (tagsOf b).length > 0) then
    "merge_metadata"
  else if bookmarks.any (fun b => truthyStr b.title && jsLen b.title > 20) then
    "keep_most_descriptive"
  else if bookmarks.any (fun b => b.dateVisited matches some _) then
    "keep_most_recent"
  else
    "keep_first"

/-- The five reason phrases checked by `getActionReason` on one record, in
source order. -/
def reasonsFor (now : ℚ) (b : Bookmark) : List String :=
  (if truthyStr b.title && jsLen b.title > 20 then ["Most descriptive title"] else []) ++
  (if truthyStr b.description then ["Has description"] else []) ++
  (if (b.tags matches some _) && (tagsOf b).length > 0 then ["Most tagged"] else []) ++
  (match b.dateVisited with
   | none => []
   | some t => if (now - t) / msPerDay < 30 then ["Recently visited"] else []) ++
  (if truthyStr b.category then ["Categorized"] else [])

/-- `getActionReason(bookmarks)`: the source takes `scores[0]` of the
UNSORTED `scoreBookmarks` output — i.e. the first member in encounter
order, not the top-scored one.  On an empty list the source would throw
(reading a property of `undefined`); that case is unreachable from
`recommendAction`, which has already thrown, and is mapped to `""`. -/
def getActionReason (now : ℚ) (bookmarks : List Bookmark) : String :=
  match scoreBookmarks now bookmarks with
  | [] => ""
  | best :: _ =>
    let reasons := reasonsFor now best.bookmark
    if reasons.length > 0 then String.intercalate ", " reasons
    else "Highest overall quality"

/-- `mergeTitles(bookmarks)`: non-blank titles, stably sorted descending by
length, first one (or `""`). -/
def mergeTitles (bookmarks : List Bookmark) : String :=
  let titles := (bookmarks.map (fun b => b.title)).filterMap fun o =>
    match o with
    | none => none
    | some t => if jsTrim t ≠ "" then some t else none
  match sortDescBy (fun t => (t.length : ℚ)) titles with
  | [] => ""
  | t :: _ => t

/-- Order-preserving first-occurrence dedup, the behaviour of
`[...new Set(xs)]`. -/
def dedupFirst (seen : List String) : List String → List String
  | [] => []
  | x :: xs =>
    if seen.contains x then dedupFirst seen xs
    else x :: dedupFirst (x :: seen) xs

/-- `mergeDescriptions(bookmarks)`: distinct non-blank descriptions joined
with a separator. -/
def mergeDescriptions (bookmarks : List Bookmark) : String :=
  let descriptions := (bookmarks.map (fun b => b.description)).filterMap fun o =>
    match o with
    | none => none
    | some d => if jsTrim d ≠ "" then some d else none
  match descriptions with
  | [] => ""
  | _ => String.intercalate " | " (dedupFirst [] descriptions)

/-- Add a member's tags to the collected list, skipping already-seen tag
ids — the JS `Map` keyed by `tag.id` in `mergeTags`. -/
def addTags (collected : List Tag) : List Tag → List Tag
  | [] => collected
  | t :: ts =>
    if collected.any (fun t2 => t2.id = t.id) then addTags collected ts
    else addTags (collected ++ [t]) ts

/-- `mergeTags(bookmarks)`: union of member tags, deduplicated by tag id in
first-seen order. -/
def mergeTags (bookmarks : List Bookmark) : List Tag :=
  bookmarks.foldl (fun acc b => addTags acc (tagsOf b)) []

/-- JS object property assignment `target[k] = v`: overwrite in place when
the key exists, append otherwise. -/
def objSet (m : List (String × MetaVal)) (k : String) (v : MetaVal) :
    List (String × MetaVal) :=
  if m.any (fun p => p.1 = k) then
    m.map (fun p => if p.1 = k then (k, v) else p)
  else m ++ [(k, v)]

/-- `Object.assign(target, src)`: assign every key of `src` left to
right. -/
def objAssign (target src : List (String × MetaVal)) : List (String × MetaVal) :=
  src.foldl (fun t p => objSet t p.1 p.2) target

/-- `mergeMetadata(bookmarks)`: shallow-merge every member's `meta`, then set
`totalVisits` to the visit-count sum, then set `lastVisited` to the head of
the visited dates sorted descending — when at least one member has one. -/
def mergeMetadata (bookmarks : List Bookmark) : List (String × MetaVal) :=
  let merged := bookmarks.foldl
    (fun acc b =>
      match b.meta with
      | none => acc
      | some m => objAssign acc m) []
  let totalVisits := bookmarks.foldl (fun s b => s + orZeroVisits b.visitCount) 0
  let merged := objSet merged "totalVisits" (MetaVal.num (totalVisits : ℚ))
  let visits := sortDescBy (fun q => q) (bookmarks.filterMap (fun b => b.dateVisited))
  match visits with
  | [] => merged
  | v :: _ => objSet merged "lastVisited" (MetaVal.num v)

/-- The `merge` payload of a recommendation. -/
structure MergePayload where
  title : String
  description : String
  tags : List Tag
  metadata : List (String × MetaVal)
  deriving Repr, DecidableEq

/-- The object returned by `recommendAction`. -/
structure RecAction where
  keep : String
  action : String
  reason : String
  merge : MergePayload
  deriving Repr, DecidableEq

/-- `recommendAction(bookmarks)` (§4.4): stably sort the scored members
descending and keep the top one; on an empty group the source throws
(`best` is `undefined`), modelled as `none`. -/
def recommendAction (now : ℚ) (bookmarks : List Bookmark) : Option RecAction :=
  let scored := sortDescBy (fun s => s.score) (scoreBookmarks now bookmarks)
  match scored with
  | [] => none
  | best :: _ =>
    some
      { keep := best.bookmark.id
        action := determineAction bookmarks
        reason := getActionReason now bookmarks
        merge :=
          { title := mergeTitles bookmarks
            description := mergeDescriptions bookmarks
            tags := mergeTags bookmarks
            metadata := mergeMetadata bookmarks } }

/-! ### Auto-resolution (`autoResolve`), pure core

`autoResolve` fetches all bookmarks, groups them with `findAll`, and for
each group issues `updateBookmark(id, {isDuplicate: true, duplicateOf:
keeper.id})` for every member whose id differs from the keeper's.  The
persistence calls are external I/O; the pure core below computes exactly
the duplicate-mark updates that loop issues, in order. -/

/-- One issued `updateBookmark(targetId, { isDuplicate: true, duplicateOf })`
call of the marking loop. -/
structure MarkUpdate where
  targetId : String
  duplicateOf : String
  deriving Repr, DecidableEq

/-- The keeper of a group: the member found by
`group.bookmarks.find(b => b.id === keep)`. -/
def keeperOf (now : ℚ) (g : DupGroup) : Option Bookmark :=
  match recommendAction now g.bookmarks with
  | none => none
  | some r => g.bookmarks.find? (fun b => b.id = r.keep)

/-- Duplicate-mark updates contributed by one group: skipped when the group
has fewer than two members or no keeper is found; otherwise one update per
member whose id differs from the keeper's, with `duplicateOf` the keeper's
id. -/
def marksOfGroup (now : ℚ) (g : DupGroup) : List MarkUpdate :=
  if g.bookmarks.length < 2 then []
  else
    match keeperOf now g with
    | none => []
    | some keeper =>
      (g.bookmarks.filter (fun b => b.id ≠ keeper.id)).map
        (fun b => { targetId := b.id, duplicateOf := keeper.id })

/-- All duplicate-mark updates issued by `autoResolve` over a bookmark
collection, in issue order. -/
def autoResolveMarks (now : ℚ) (bookmarks : List Bookmark) : List MarkUpdate :=
  (groupDuplicates bookmarks).foldl (fun acc g => acc ++ marksOfGroup now g) []

/-! ### Spec-side definitions

The following definitions are written from the words of the specification
(and of the claims under check), not from the source; the theorems below
compare them with the source-side definitions above. -/

/-- From the spec's words (§4.1, failure contract): "the lowercased input
with a leading `http://` or `https://` stripped, a leading `www.` stripped,
and a trailing `/` stripped". -/
def specFallback (u : String) : String :=
  stripSlash (stripWww (stripScheme (jsToLower u)))

/-- From the spec's words (§4.4 step 4): the reason phrases checked on a
given member, joined with `", "`, defaulting to "Highest overall quality"
when none apply. -/
def reasonText (now : ℚ) (b : Bookmark) : String :=
  match reasonsFor now b with
  | [] => "Highest overall quality"
  | rs => String.intercalate ", " rs

/-- From the claim's words (C2): the reason assembled on the TOP-SCORED
member (first-seen one attaining the maximal score); `""` on an empty group
(unreachable). -/
def specReasonTop (now : ℚ) (bookmarks : List Bookmark) : String :=
  match firstMaxBy (scoreOf now) bookmarks with
  | none => ""
  | some m => reasonText now m

/-- From the amended claim (C2): the reason assembled on the FIRST member
in encounter order; `""` on an empty group (unreachable). -/
def specReasonOnFirst (now : ℚ) (bookmarks : List Bookmark) : String :=
  match bookmarks with
  | [] => ""
  | b :: _ => reasonText now b

/-- From the spec's words (§4.4 step 3): the priority policy over the whole
group. -/
def specActionPolicy (bookmarks : List Bookmark) : String :=
  if bookmarks.any (fun b =>
      truthyStr b.title && truthyStr b.description && decide (1 ≤ (tagsOf b).length)) then
    "merge_metadata"
  else if bookmarks.any (fun b => decide (20 < jsLen b.title)) then
    "keep_most_descriptive"
  else if bookmarks.any (fun b => b.dateVisited matches some _) then
    "keep_most_recent"
  else
    "keep_first"

/-- From the claim's words (C8, as stated): "the longest non-empty member
title (ties broken by encounter order)". -/
def specMergeTitleStated (bookmarks : List Bookmark) : String :=
  ((firstMaxBy (fun t => (t.length : ℚ))
      ((bookmarks.map (fun b => b.title)).filterMap fun o =>
        match o with
        | none => none
        | some t => if t ≠ "" then some t else none))).getD ""

/-- From the amended claim (C8): the longest member title that is non-blank
(non-empty after trimming whitespace), ties broken by encounter order. -/
def specMergeTitle (bookmarks : List Bookmark) : String :=
  ((firstMaxBy (fun t => (t.length : ℚ))
      ((bookmarks.map (fun b => b.title)).filterMap fun o =>
        match o with
        | none => none
        | some t => if jsTrim t ≠ "" then some t else none))).getD ""

/-- From the amended claim (C8): all distinct non-blank member descriptions,
in first-seen order, joined with a separator. -/
def specMergeDescription (bookmarks : List Bookmark) : String :=
  String.intercalate " | "
    (dedupFirst []
      ((bookmarks.map (fun b => b.description)).filterMap fun o =>
        match o with
        | none => none
        | some d => if jsTrim d ≠ "" then some d else none))

/-- First-occurrence dedup of tags by tag id, given already-seen ids. -/
def dedupTagsAux (seen : List String) : List Tag → List Tag
  | [] => []
  | t :: ts =>
    if seen.contains t.id then dedupTagsAux seen ts
    else t :: dedupTagsAux (t.id :: seen) ts

/-- From the spec's words (§4.4 step 5): union of all member tags,
deduplicated by tag id, first-seen order. -/
def specMergeTags (bookmarks : List Bookmark) : List Tag :=
  dedupTagsAux [] (bookmarks.map tagsOf).flatten

/-- The most recent element of a list of timestamps (`none` when empty). -/
def maxRecent : List ℚ → Option ℚ
  | [] => none
  | x :: xs => some (xs.foldl max x)

/-- From the spec's words (§4.4 step 5): left-to-right shallow merge of the
members' `meta` maps, then `totalVisits` set to the sum of all visit counts
(default 0), then `lastVisited` set to the most recent `dateVisited` among
members that have one — that update omitted when none do. -/
def specMergeMetadata (bookmarks : List Bookmark) : List (String × MetaVal) :=
  let merged := bookmarks.foldl
    (fun acc b =>
      match b.meta with
      | none => acc
      | some m => objAssign acc m) []
  let merged := objSet merged "totalVisits"
    (MetaVal.num (((bookmarks.map (fun b => orZeroVisits b.visitCount)).sum : ℕ) : ℚ))
  match maxRecent (bookmarks.filterMap (fun b => b.dateVisited)) with
  | none => merged
  | some v => objSet merged "lastVisited" (MetaVal.num v)

/-- Records of `bs` whose grouping key is `k` (records lacking a url have no
key and are never counted). -/
def keyFilter (bs : List Bookmark) (k : String) : List Bookmark :=
  bs.filter (fun b => decide (groupKey b = some k))

/-! ## Helper lemmas -/

/-- Inserting never produces the empty list. -/
theorem insertDescBy_ne_nil {α : Type} (key : α → ℚ) (x : α) (l : List α) :
    insertDescBy key x l ≠ [] := by
  cases l with
  | nil => simp [insertDescBy]
  | cons y ys =>
    unfold insertDescBy
    split <;> simp

/-- Sorting never produces the empty list from a non-empty one. -/
theorem sortDescBy_ne_nil {α : Type} (key : α → ℚ) (x : α) (xs : List α) :
    sortDescBy key (x :: xs) ≠ [] :=
  insertDescBy_ne_nil key x (sortDescBy key xs)

/-- `firstMaxBy` returns `none` exactly on the empty list. -/
theorem firstMaxBy_eq_none_iff {α : Type} (key : α → ℚ) (l : List α) :
    firstMaxBy key l = none ↔ l = [] := by
  cases l with
  | nil => simp [firstMaxBy]
  | cons x xs =>
    unfold firstMaxBy
    constructor
    · intro h
      split at h <;> simp_all
      split at h <;> simp_all
    · intro h
      simp at h

/-- Head of an insertion, in terms of the head of the old list. -/
theorem insertDescBy_head {α : Type} (key : α → ℚ) (x : α) (l : List α) :
    (insertDescBy key x l).head? =
      match l.head? with
      | none => some x
      | some y => if key y > key x then some y else some x := by
  cases l with
  | nil => rfl
  | cons y ys =>
    show (if key y > key x then y :: insertDescBy key x ys else x :: y :: ys).head? =
      if key y > key x then some y else some x
    split <;> rfl

/-- The head of the stable descending sort is the first-seen element with
maximal key. -/
theorem sortDescBy_head {α : Type} (key : α → ℚ) (l : List α) :
    (sortDescBy key l).head? = firstMaxBy key l := by
  induction l with
  | nil => rfl
  | cons x xs ih =>
    have h1 : sortDescBy key (x :: xs) = insertDescBy key x (sortDescBy key xs) := rfl
    rw [h1, insertDescBy_head, ih]
    rfl

/-- The element delivered by `firstMaxBy` is a member of the list. -/
theorem firstMaxBy_mem {α : Type} (key : α → ℚ) (l : List α) (m : α)
    (h : firstMaxBy key l = some m) : m ∈ l := by
  induction l with
  | nil => simp [firstMaxBy] at h
  | cons x xs ih =>
    unfold firstMaxBy at h
    split at h
    · injection h with h
      subst h
      exact List.mem_cons_self x xs
    · rename_i m0 hm0
      split at h
      · injection h with h
        subst h
        exact List.mem_cons_of_mem x (ih hm0)
      · injection h with h
        subst h
        exact List.mem_cons_self x xs

/-- The element delivered by `firstMaxBy` attains the maximal key. -/
theorem firstMaxBy_le {α : Type} (key : α → ℚ) (l : List α) (m : α)
    (h : firstMaxBy key l = some m) : ∀ x ∈ l, key x ≤ key m := by
  induction l generalizing m with
  | nil => simp [firstMaxBy] at h
  | cons x xs ih =>
    unfold firstMaxBy at h
    split at h
    · rename_i hnone
      injection h with h
      subst h
      rw [firstMaxBy_eq_none_iff] at hnone
      subst hnone
      simp
    · rename_i m0 hm0
      intro z hz
      split at h
      · rename_i hgt
        injection h with h
        subst h
        rcases List.mem_cons.mp hz with hz1 | hz2
        · subst hz1
          exact le_of_lt hgt
        · exact ih m0 hm0 z hz2
      · rename_i hngt
        injection h with h
        subst h
        rcases List.mem_cons.mp hz with hz1 | hz2
        · subst hz1
          exact le_refl _
        · exact le_trans (ih m0 hm0 z hz2) (le_of_not_lt hngt)

/-- `firstMaxBy` commutes with `map` when the key factors through the
mapped function. -/
theorem firstMaxBy_map {α β : Type} (key : β → ℚ) (f : α → β) (l : List α) :
    firstMaxBy key (l.map f) = (firstMaxBy (fun a => key (f a)) l).map f := by
  induction l with
  | nil => rfl
  | cons x xs ih =>
    show firstMaxBy key (f x :: xs.map f) = _
    unfold firstMaxBy
    rw [ih]
    cases hx : firstMaxBy (fun a => key (f a)) xs with
    | none => rfl
    | some m0 =>
      show (if key (f m0) > key (f x) then some (f m0) else some (f x)) =
        Option.map f (if key (f m0) > key (f x) then some m0 else some x)
      split <;> rfl

/-- Unfolding `recommendAction` once the sorted scored list is known. -/
theorem recommendAction_of_sorted (now : ℚ) (bs : List Bookmark) (best : Scored)
    (tl : List Scored)
    (hs : sortDescBy (fun s => s.score) (scoreBookmarks now bs) = best :: tl) :
    recommendAction now bs = some
      { keep := best.bookmark.id
        action := determineAction bs
        reason := getActionReason now bs
        merge :=
          { title := mergeTitles bs
            description := mergeDescriptions bs
            tags := mergeTags bs
            metadata := mergeMetadata bs } } := by
  unfold recommendAction
  rw [hs]

/-- The `keep` field of a recommendation is the id of the first-seen member
with maximal score. -/
theorem recommend_keep_eq (now : ℚ) (bs : List Bookmark) (m : Bookmark)
    (h : firstMaxBy (scoreOf now) bs = some m) :
    (recommendAction now bs).map (fun r => r.keep) = some m.id := by
  have hhead : (sortDescBy (fun s => s.score) (scoreBookmarks now bs)).head? =
      some { bookmark := m, score := scoreOf now m } := by
    rw [sortDescBy_head]
    unfold scoreBookmarks
    rw [firstMaxBy_map (fun s => s.score)
      (fun b => ({ bookmark := b, score := scoreOf now b } : Scored)) bs]
    rw [h]
    rfl
  cases hs : sortDescBy (fun s => s.score) (scoreBookmarks now bs) with
  | nil => rw [hs] at hhead; simp at hhead
  | cons best tl =>
    rw [hs] at hhead
    simp only [List.head?_cons, Option.some_inj] at hhead
    rw [recommendAction_of_sorted now bs best tl hs, hhead]
    rfl

/-- A non-empty member list always yields a recommendation. -/
theorem recommendAction_isSome (now : ℚ) (bs : List Bookmark) (h : bs ≠ []) :
    ∃ r, recommendAction now bs = some r := by
  cases bs with
  | nil => exact absurd rfl h
  | cons b bs0 =>
    cases hs : sortDescBy (fun s => s.score) (scoreBookmarks now (b :: bs0)) with
    | nil =>
      exact absurd hs (sortDescBy_ne_nil _ _ _)
    | cons best tl =>
      exact ⟨_, recommendAction_of_sorted now _ best tl hs⟩

/-! ## C1 — keep is the top-scored member -/

/-- C1: for every non-empty duplicate group, `recommend` scores every member
with the quality scorer, sorts descending by score with stable ties
(first-seen wins), and returns `keep` equal to the id of the top-scored
member — the first-seen member attaining the maximal quality score. -/
theorem C1_recommend_keep_top_scored (now : ℚ) (bs : List Bookmark) (h : bs ≠ []) :
    ∃ r m, recommendAction now bs = some r ∧ firstMaxBy (scoreOf now) bs = some m ∧
      r.keep = m.id ∧ m ∈ bs ∧ ∀ b ∈ bs, scoreOf now b ≤ scoreOf now m := by
  cases hm : firstMaxBy (scoreOf now) bs with
  | none => rw [firstMaxBy_eq_none_iff] at hm; exact absurd hm h
  | some m =>
    obtain ⟨r, hr⟩ := recommendAction_isSome now bs h
    refine ⟨r, m, hr, rfl, ?_, firstMaxBy_mem _ _ _ hm, firstMaxBy_le _ _ _ hm⟩
    have hk := recommend_keep_eq now bs m hm
    rw [hr] at hk
    simpa using hk

/-- C1 witness: on a concrete two-member group the top-scored member is the
second one, and its id is the one kept. -/
theorem C1_witness :
    ∃ r m,
      recommendAction 0 [{ id := "1" }, { id := "2", description := some "d" }] = some r ∧
      firstMaxBy (scoreOf 0) [{ id := "1" }, { id := "2", description := some "d" }] = some m ∧
      r.keep = m.id ∧
      m ∈ [({ id := "1" } : Bookmark), { id := "2", description := some "d" }] ∧
      ∀ b ∈ [({ id := "1" } : Bookmark), { id := "2", description := some "d" }],
        scoreOf 0 b ≤ scoreOf 0 m :=
  C1_recommend_keep_top_scored 0 _ (by decide)

/-! ## C9 — determinism of keep across member orderings -/

/-- C9 counterexample: two tied members — reversing the group's order changes
the kept id, so `recommend` is not order-independent as claimed. -/
theorem C9_counterexample :
    ([({ id := "1" } : Bookmark), { id := "2" }]).Perm [{ id := "2" }, { id := "1" }] ∧
    (recommendAction 0 [{ id := "1" }, { id := "2" }]).map (fun r => r.keep) = some "1" ∧
    (recommendAction 0 [{ id := "2" }, { id := "1" }]).map (fun r => r.keep) = some "2" :=
  ⟨List.Perm.swap _ _ _,
   by norm_num [recommendAction, scoreBookmarks, sortDescBy, insertDescBy, scoreOf, rawScore,
    titleScore, descScore, metaScore, visitDateScore, visitCountScore, tagScore,
    categoryScore, addedScore, httpsScore, brokenPenalty, orZeroVisits, truthyStr],
   by norm_num [recommendAction, scoreBookmarks, sortDescBy, insertDescBy, scoreOf, rawScore,
    titleScore, descScore, metaScore, visitDateScore, visitCountScore, tagScore,
    categoryScore, addedScore, httpsScore, brokenPenalty, orZeroVisits, truthyStr]⟩

/-- C9 (amended): `recommend` returns the same `keep` id for every ordering
of the group whenever all members attaining the maximal score share one id —
in particular whenever the top score is attained by a single member.  (As
stated the claim fails when two distinct-id members tie for the top score:
`keep` is the first-seen maximal member, see the counterexample.) -/
theorem C9_recommend_keep_perm_invariant (now : ℚ) (bs bs2 : List Bookmark)
    (hp : bs.Perm bs2)
    (huniq : ∀ a ∈ bs, ∀ b ∈ bs,
      (∀ c ∈ bs, scoreOf now c ≤ scoreOf now a) →
      (∀ c ∈ bs, scoreOf now c ≤ scoreOf now b) → a.id = b.id) :
    (recommendAction now bs).map (fun r => r.keep) =
      (recommendAction now bs2).map (fun r => r.keep) := by
  cases hbs : bs with
  | nil =>
    subst hbs
    have h2 : bs2 = [] := hp.symm.eq_nil
    rw [h2]
  | cons b bs0 =>
    rw [← hbs]
    have hne : bs ≠ [] := by rw [hbs]; simp
    have hne2 : bs2 ≠ [] := by
      intro h2
      rw [h2] at hp
      exact hne hp.eq_nil
    cases hm : firstMaxBy (scoreOf now) bs with
    | none => rw [firstMaxBy_eq_none_iff] at hm; exact absurd hm hne
    | some m =>
      cases hm2 : firstMaxBy (scoreOf now) bs2 with
      | none => rw [firstMaxBy_eq_none_iff] at hm2; exact absurd hm2 hne2
      | some m2 =>
        rw [recommend_keep_eq now bs m hm, recommend_keep_eq now bs2 m2 hm2]
        have hmem : m ∈ bs := firstMaxBy_mem _ _ _ hm
        have hmem2 : m2 ∈ bs := hp.symm.subset (firstMaxBy_mem _ _ _ hm2)
        have hle : ∀ c ∈ bs, scoreOf now c ≤ scoreOf now m := firstMaxBy_le _ _ _ hm
        have hle2 : ∀ c ∈ bs, scoreOf now c ≤ scoreOf now m2 := fun c hc =>
          firstMaxBy_le _ _ _ hm2 c (hp.subset hc)
        rw [huniq m hmem m2 hmem2 hle hle2]

/-- C9 witness: on a two-member group whose members share one id, the
amended theorem applies and both orderings keep the same id. -/
theorem C9_witness :
    (recommendAction 0 [{ id := "1" }, { id := "1", description := some "d" }]).map
        (fun r => r.keep) =
      (recommendAction 0 [{ id := "1", description := some "d" }, { id := "1" }]).map
        (fun r => r.keep) :=
  C9_recommend_keep_perm_invariant 0 _ _ (List.Perm.swap _ _ _)
    (by
      intro a ha b hb _ _
      fin_cases ha <;> fin_cases hb <;> rfl)

/-! ## C2 — the reason string is computed on the first member, not the
top-scored one -/

/-- C2 counterexample: in the group `[empty, has-description]` the second
member is the unique top-scored one, so the claim predicts reason
"Has description"; the source computes the reason on `scores[0]` of the
unsorted array — the first member — and returns "Highest overall quality". -/
theorem C2_counterexample :
    (recommendAction 0 [{ id := "1" }, { id := "2", description := some "d" }]).map
        (fun r => r.reason) = some "Highest overall quality" ∧
    firstMaxBy (scoreOf 0) [{ id := "1" }, { id := "2", description := some "d" }] =
      some { id := "2", description := some "d" } ∧
    specReasonTop 0 [{ id := "1" }, { id := "2", description := some "d" }] =
      "Has description" ∧
    ("Highest overall quality" : String) ≠ "Has description" :=
  ⟨by
    norm_num [recommendAction, scoreBookmarks, sortDescBy, insertDescBy, scoreOf, rawScore,
    titleScore, descScore, metaScore, visitDateScore, visitCountScore, tagScore,
    categoryScore, addedScore, httpsScore, brokenPenalty, orZeroVisits, truthyStr,
      getActionReason, reasonsFor, jsLen, min_def, max_def,
      (by decide : jsTrim "d" = "d"), (by decide : "d".length = 1),
      (by decide : ("d" : String) ≠ "")],
   by
    norm_num [firstMaxBy, scoreOf, rawScore,
      titleScore, descScore, metaScore, visitDateScore, visitCountScore, tagScore,
      categoryScore, addedScore, httpsScore, brokenPenalty, orZeroVisits, truthyStr,
      min_def, max_def, (by decide : jsTrim "d" = "d"), (by decide : "d".length = 1),
      (by decide : ("d" : String) ≠ "")],
   by
    norm_num [specReasonTop, firstMaxBy, reasonText, reasonsFor, scoreOf, rawScore,
      titleScore, descScore, metaScore, visitDateScore, visitCountScore, tagScore,
      categoryScore, addedScore, httpsScore, brokenPenalty, orZeroVisits, truthyStr,
      jsLen, min_def, max_def, (by decide : jsTrim "d" = "d"),
      (by decide : "d".length = 1), (by decide : ("d" : String) ≠ ""),
      (by decide : String.intercalate ", " ["Has description"] = "Has description")],
   by decide⟩

/-- C2 (amended): the reason string returned by `recommend` is assembled by
checking, on the FIRST member of the group in encounter order (not the
top-scored one), the conditions: title length > 20 yields "Most descriptive
title", a non-empty description yields "Has description", at least one tag
yields "Most tagged", a `dateVisited` within 30 days yields "Recently
visited", a category yields "Categorized"; the applicable phrases are joined
with ", ", and the reason is "Highest overall quality" when none apply. -/
theorem C2_recommend_reason_on_first (now : ℚ) (bs : List Bookmark) (h : bs ≠ []) :
    (recommendAction now bs).map (fun r => r.reason) = some (specReasonOnFirst now bs) := by
  cases bs with
  | nil => exact absurd rfl h
  | cons b bs0 =>
    cases hs : sortDescBy (fun s => s.score) (scoreBookmarks now (b :: bs0)) with
    | nil => exact absurd hs (sortDescBy_ne_nil _ _ _)
    | cons best tl =>
      rw [recommendAction_of_sorted now _ best tl hs]
      show some (getActionReason now (b :: bs0)) = some (specReasonOnFirst now (b :: bs0))
      unfold getActionReason specReasonOnFirst scoreBookmarks reasonText
      simp only [List.map_cons]
      cases hr : reasonsFor now b with
      | nil => rfl
      | cons p ps => simp

/-- C2 witness: a concrete group whose first member has a description and a
category; the reason lists exactly those phrases of the first member. -/
theorem C2_witness :
    (recommendAction 0 [{ id := "1", description := some "d", category := some "c" },
        { id := "2" }]).map (fun r => r.reason) =
      some (specReasonOnFirst 0 [{ id := "1", description := some "d", category := some "c" },
        { id := "2" }]) :=
  C2_recommend_reason_on_first 0 _ (by decide)

/-! ## C7 — the action priority policy -/

/-- The group-wide action policy of the source equals the spec's priority
policy: the extra truthiness guards of the source are redundant. -/
theorem determineAction_eq_spec (bs : List Bookmark) :
    determineAction bs = specActionPolicy bs := by
  have h1 : (fun b : Bookmark => truthyStr b.title && truthyStr b.description &&
      (b.tags matches some _) && decide ((tagsOf b).length > 0)) =
      (fun b : Bookmark => truthyStr b.title && truthyStr b.description &&
        decide (1 ≤ (tagsOf b).length)) := by
    funext b
    cases ht : b.tags with
    | none => simp [tagsOf, ht]
    | some ts =>
      simp only [tagsOf, ht, Bool.and_true, Nat.lt_iff_add_one_le, Nat.zero_add]
  have h2 : (fun b : Bookmark => truthyStr b.title && decide (jsLen b.title > 20)) =
      (fun b : Bookmark => decide (20 < jsLen b.title)) := by
    funext b
    cases ht : b.title with
    | none => simp [truthyStr, jsLen, ht]
    | some t =>
      by_cases hl : 20 < t.length
      · have hne : t ≠ "" := by
          intro he
          subst he
          simp at hl
        simp [truthyStr, jsLen, ht, hl, hne]
      · simp [truthyStr, jsLen, ht, hl]
  unfold determineAction specActionPolicy
  rw [h1, h2]

/-- C7: for every non-empty duplicate group, the action returned by
`recommend` is chosen by the priority policy over the whole group:
`merge_metadata` if any member has a non-empty title, a non-empty
description, and at least one tag; else `keep_most_descriptive` if any
member has a title longer than 20 characters; else `keep_most_recent` if
any member has a `dateVisited`; else `keep_first`. -/
theorem C7_recommend_action_policy (now : ℚ) (bs : List Bookmark) (h : bs ≠ []) :
    (recommendAction now bs).map (fun r => r.action) = some (specActionPolicy bs) := by
  cases bs with
  | nil => exact absurd rfl h
  | cons b bs0 =>
    cases hs : sortDescBy (fun s => s.score) (scoreBookmarks now (b :: bs0)) with
    | nil => exact absurd hs (sortDescBy_ne_nil _ _ _)
    | cons best tl =>
      rw [recommendAction_of_sorted now _ best tl hs]
      show some (determineAction (b :: bs0)) = _
      rw [determineAction_eq_spec]

/-- C7 witness: a concrete group where one member has title, description and
a tag; the recommended action matches the spec policy. -/
theorem C7_witness :
    (recommendAction 0 [{ id := "1" },
        { id := "2", title := some "t", description := some "d",
          tags := some [{ id := "tag1" }] }]).map (fun r => r.action) =
      some (specActionPolicy [{ id := "1" },
        { id := "2", title := some "t", description := some "d",
          tags := some [{ id := "tag1" }] }]) :=
  C7_recommend_action_policy 0 _ (by decide)

/-! ## C5 — normalization is total and degrades to the documented fallback -/

/-- C5: `normalize` is total on strings (it is a Lean function, and the
source catches every parse error), and on URL parse failure it returns the
lowercased input with a leading `http://` or `https://` stripped, a leading
`www.` stripped, and a trailing `/` stripped. -/
theorem C5_normalize_fallback (u : String) (h : jsURL u = none) :
    normalizeUrl u = specFallback u := by
  unfold normalizeUrl
  rw [h]
  rfl

/-- C5 witness: the repository's own test vector `not-a-valid-url` fails to
parse and normalizes to the documented fallback form — itself. -/
theorem C5_witness :
    jsURL "not-a-valid-url" = none ∧
    normalizeUrl "not-a-valid-url" = specFallback "not-a-valid-url" ∧
    specFallback "not-a-valid-url" = "not-a-valid-url" :=
  ⟨by decide, C5_normalize_fallback _ (by decide), by decide⟩

/-! ## C4 — normalization is NOT idempotent -/

/-- C4 counterexample: `normalize("https://example.com/") = "example.com/"`
(the root path keeps its slash), but a second application takes the fallback
branch and strips the trailing slash, yielding `"example.com"`. -/
theorem C4_counterexample :
    normalizeUrl (normalizeUrl "https://example.com/") ≠
      normalizeUrl "https://example.com/" := by decide

/-- C4 (amended): `normalize` is not idempotent on all strings; it is
idempotent on strings already in fallback-normal form — strings that fail to
parse as URLs, are unchanged by lowercasing, and carry none of the stripped
affixes (`http://`, `https://`, `www.` prefixes, `/` suffix).  Such strings
are fixed points of `normalize`. -/
theorem C4_normalize_idempotent_on_stable (u : String)
    (hp : jsURL u = none) (hl : jsToLower u = u)
    (h1 : jsStartsWith u "http://" = false) (h2 : jsStartsWith u "https://" = false)
    (h3 : jsStartsWith u "www." = false) (h4 : jsEndsWith u "/" = false) :
    normalizeUrl u = u ∧ normalizeUrl (normalizeUrl u) = normalizeUrl u := by
  have hfix : normalizeUrl u = u := by
    unfold normalizeUrl
    rw [hp]
    show stripSlash (stripWww (stripScheme (jsToLower u))) = u
    rw [hl]
    unfold stripScheme stripWww stripSlash
    simp [h1, h2, h3, h4]
  exact ⟨hfix, by rw [hfix]; exact hfix⟩

/-- C4 witness: `example.com` is in fallback-normal form, hence a fixed
point of `normalize`. -/
theorem C4_witness :
    normalizeUrl "example.com" = "example.com" ∧
    normalizeUrl (normalizeUrl "example.com") = normalizeUrl "example.com" :=
  C4_normalize_idempotent_on_stable "example.com" (by decide) (by decide)
    (by decide) (by decide) (by decide) (by decide)

/-! ## C6 — scorer monotonicity; the broken-link penalty is clamped -/

/-- Non-negativity of the title summand. -/
theorem titleScore_nonneg (b : Bookmark) : 0 ≤ titleScore b := by
  rcases hb : b.title with _ | t
  · simp [titleScore, hb]
  · simp only [titleScore, hb]
    split
    · have h0 : (0 : ℚ) ≤ min ((t.length : ℚ) / 10) 5 := le_min (by positivity) (by norm_num)
      linarith
    · norm_num

/-- Non-negativity of the description summand. -/
theorem descScore_nonneg (b : Bookmark) : 0 ≤ descScore b := by
  rcases hb : b.description with _ | d
  · simp [descScore, hb]
  · simp only [descScore, hb]
    split
    · have h0 : (0 : ℚ) ≤ min ((d.length : ℚ) / 20) 4 := le_min (by positivity) (by norm_num)
      linarith
    · norm_num

/-- Non-negativity of the metadata summand. -/
theorem metaScore_nonneg (b : Bookmark) : 0 ≤ metaScore b := by
  rcases hb : b.meta with _ | m
  · simp [metaScore, hb]
  · simp only [metaScore, hb]
    positivity

/-- Non-negativity of the visit-recency summand. -/
theorem visitDateScore_nonneg (now : ℚ) (b : Bookmark) : 0 ≤ visitDateScore now b := by
  rcases hb : b.dateVisited with _ | t
  · simp [visitDateScore, hb]
  · simp only [visitDateScore, hb]
    exact le_max_left 0 _

/-- Non-negativity of the visit-count summand. -/
theorem visitCountScore_nonneg (b : Bookmark) : 0 ≤ visitCountScore b := by
  unfold visitCountScore
  positivity

/-- Non-negativity of the tag summand. -/
theorem tagScore_nonneg (b : Bookmark) : 0 ≤ tagScore b := by
  rcases hb : b.tags with _ | ts
  · simp [tagScore, hb]
  · simp only [tagScore, hb]
    split
    · positivity
    · norm_num

/-- Non-negativity of the category summand. -/
theorem categoryScore_nonneg (b : Bookmark) : 0 ≤ categoryScore b := by
  unfold categoryScore
  split <;> norm_num

/-- Non-negativity of the freshness summand. -/
theorem addedScore_nonneg (now : ℚ) (b : Bookmark) : 0 ≤ addedScore now b := by
  rcases hb : b.dateAdded with _ | t
  · simp [addedScore, hb]
  · simp only [addedScore, hb]
    exact le_max_left 0 _

/-- Non-negativity of the https summand. -/
theorem httpsScore_nonneg (b : Bookmark) : 0 ≤ httpsScore b := by
  rcases hb : b.url with _ | u
  · simp [httpsScore, hb]
  · simp only [httpsScore, hb]
    split <;> norm_num

/-- On a non-broken record the accumulated sum is non-negative, so the final
clamp is the identity there. -/
theorem rawScore_nonneg (now : ℚ) (b : Bookmark) (hb : b.isBroken = false) :
    0 ≤ rawScore now b := by
  have hpen : brokenPenalty b = 0 := by simp [brokenPenalty, hb]
  unfold rawScore
  rw [hpen]
  linarith [titleScore_nonneg b, descScore_nonneg b, metaScore_nonneg b,
    visitDateScore_nonneg now b, visitCountScore_nonneg b, tagScore_nonneg b,
    categoryScore_nonneg b, addedScore_nonneg now b, httpsScore_nonneg b]

/-- Appending a tag does not decrease the tag summand (creating the list
when absent). -/
theorem tagScore_add_tag (b : Bookmark) (t : Tag) :
    tagScore b ≤ tagScore { b with tags := some (tagsOf b ++ [t]) } := by
  rcases hb : b.tags with _ | ts
  · simp only [tagScore, hb, tagsOf]
    rw [if_pos (by simp)]
    positivity
  · simp only [tagScore, hb, tagsOf]
    split
    · rw [if_pos (by simp)]
      push_cast [List.length_append]
      linarith
    · rw [if_pos (by simp)]
      positivity

/-- C6 counterexample: on a record whose quality score is already 0, setting
`isBroken` leaves the clamped score at 0 — no strict decrease, and not a
decrease by 50. -/
theorem C6_counterexample :
    scoreOf 0 { id := "1", isBroken := true } = scoreOf 0 { id := "1" } ∧
    scoreOf 0 { id := "1", isBroken := true } ≠ scoreOf 0 { id := "1" } - 50 := by
  constructor
  · norm_num [scoreOf, rawScore, titleScore, descScore, metaScore, visitDateScore,
      visitCountScore, tagScore, categoryScore, addedScore, httpsScore, brokenPenalty,
      orZeroVisits, truthyStr, max_def]
  · norm_num [scoreOf, rawScore, titleScore, descScore, metaScore, visitDateScore,
      visitCountScore, tagScore, categoryScore, addedScore, httpsScore, brokenPenalty,
      orZeroVisits, truthyStr, max_def]

/-- C6 (amended): adding a tag, a description (from absent), a visit date
(from absent), or one visit count never decreases the quality score; setting
`isBroken` on a non-broken record clamps the score to `max 0 (score - 50)` —
a strict decrease of exactly 50 whenever the score was at least 50, but no
decrease at all at score 0 (see the counterexample). -/
theorem C6_scorer_monotonicity (now : ℚ) (b : Bookmark) (t : Tag) (d : String) (v : ℚ)
    (hdesc : b.description = none) (hvis : b.dateVisited = none)
    (hbr : b.isBroken = false) :
    scoreOf now b ≤ scoreOf now { b with tags := some (tagsOf b ++ [t]) } ∧
    scoreOf now b ≤ scoreOf now { b with description := some d } ∧
    scoreOf now b ≤ scoreOf now { b with dateVisited := some v } ∧
    scoreOf now b ≤ scoreOf now { b with visitCount := some (orZeroVisits b.visitCount + 1) } ∧
    scoreOf now { b with isBroken := true } = max 0 (scoreOf now b - 50) ∧
    (50 ≤ scoreOf now b →
      scoreOf now { b with isBroken := true } = scoreOf now b - 50 ∧
      scoreOf now { b with isBroken := true } < scoreOf now b) := by
  have hmono : ∀ b2 : Bookmark, rawScore now b ≤ rawScore now b2 →
      scoreOf now b ≤ scoreOf now b2 := fun b2 h =>
    max_le_max (le_refl (0 : ℚ)) h
  have hraw : rawScore now { b with isBroken := true } = rawScore now b - 50 := by
    unfold rawScore
    have hp1 : brokenPenalty { b with isBroken := true } = -50 := by
      simp [brokenPenalty]
    have hp0 : brokenPenalty b = 0 := by simp [brokenPenalty, hbr]
    have e1 : titleScore { b with isBroken := true } = titleScore b := rfl
    have e2 : descScore { b with isBroken := true } = descScore b := rfl
    have e3 : metaScore { b with isBroken := true } = metaScore b := rfl
    have e4 : visitDateScore now { b with isBroken := true } = visitDateScore now b := rfl
    have e5 : visitCountScore { b with isBroken := true } = visitCountScore b := rfl
    have e6 : tagScore { b with isBroken := true } = tagScore b := rfl
    have e7 : categoryScore { b with isBroken := true } = categoryScore b := rfl
    have e8 : addedScore now { b with isBroken := true } = addedScore now b := rfl
    have e9 : httpsScore { b with isBroken := true } = httpsScore b := rfl
    rw [hp1, hp0, e1, e2, e3, e4, e5, e6, e7, e8, e9]
    ring
  have hsc : scoreOf now b = rawScore now b := max_eq_right (rawScore_nonneg now b hbr)
  refine ⟨?_, ?_, ?_, ?_, ?_, ?_⟩
  · apply hmono
    unfold rawScore
    have e1 : titleScore { b with tags := some (tagsOf b ++ [t]) } = titleScore b := rfl
    have e2 : descScore { b with tags := some (tagsOf b ++ [t]) } = descScore b := rfl
    have e3 : metaScore { b with tags := some (tagsOf b ++ [t]) } = metaScore b := rfl
    have e4 : visitDateScore now { b with tags := some (tagsOf b ++ [t]) } =
      visitDateScore now b := rfl
    have e5 : visitCountScore { b with tags := some (tagsOf b ++ [t]) } =
      visitCountScore b := rfl
    have e6 : categoryScore { b with tags := some (tagsOf b ++ [t]) } = categoryScore b := rfl
    have e7 : addedScore now { b with tags := some (tagsOf b ++ [t]) } = addedScore now b := rfl
    have e8 : httpsScore { b with tags := some (tagsOf b ++ [t]) } = httpsScore b := rfl
    have e9 : brokenPenalty { b with tags := some (tagsOf b ++ [t]) } = brokenPenalty b := rfl
    rw [e1, e2, e3, e4, e5, e6, e7, e8, e9]
    linarith [tagScore_add_tag b t]
  · apply hmono
    unfold rawScore
    have e1 : titleScore { b with description := some d } = titleScore b := rfl
    have e3 : metaScore { b with description := some d } = metaScore b := rfl
    have e4 : visitDateScore now { b with description := some d } =
      visitDateScore now b := rfl
    have e5 : visitCountScore { b with description := some d } = visitCountScore b := rfl
    have e6 : tagScore { b with description := some d } = tagScore b := rfl
    have e7 : categoryScore { b with description := some d } = categoryScore b := rfl
    have e8 : addedScore now { b with description := some d } = addedScore now b := rfl
    have e9 : httpsScore { b with description := some d } = httpsScore b := rfl
    have e10 : brokenPenalty { b with description := some d } = brokenPenalty b := rfl
    rw [e1, e3, e4, e5, e6, e7, e8, e9, e10]
    have h1 : descScore b = 0 := by unfold descScore; rw [hdesc]
    have h2 : 0 ≤ descScore { b with description := some d } :=
      descScore_nonneg { b with description := some d }
    linarith
  · apply hmono
    unfold rawScore
    have e1 : titleScore { b with dateVisited := some v } = titleScore b := rfl
    have e2 : descScore { b with dateVisited := some v } = descScore b := rfl
    have e3 : metaScore { b with dateVisited := some v } = metaScore b := rfl
    have e5 : visitCountScore { b with dateVisited := some v } = visitCountScore b := rfl
    have e6 : tagScore { b with dateVisited := some v } = tagScore b := rfl
    have e7 : categoryScore { b with dateVisited := some v } = categoryScore b := rfl
    have e8 : addedScore now { b with dateVisited := some v } = addedScore now b := rfl
    have e9 : httpsScore { b with dateVisited := some v } = httpsScore b := rfl
    have e10 : brokenPenalty { b with dateVisited := some v } = brokenPenalty b := rfl
    rw [e1, e2, e3, e5, e6, e7, e8, e9, e10]
    have h1 : visitDateScore now b = 0 := by unfold visitDateScore; rw [hvis]
    have h2 : 0 ≤ visitDateScore now { b with dateVisited := some v } :=
      visitDateScore_nonneg now { b with dateVisited := some v }
    linarith
  · apply hmono
    unfold rawScore
    have e1 : titleScore { b with visitCount := some (orZeroVisits b.visitCount + 1) } =
      titleScore b := rfl
    have e2 : descScore { b with visitCount := some (orZeroVisits b.visitCount + 1) } =
      descScore b := rfl
    have e3 : metaScore { b with visitCount := some (orZeroVisits b.visitCount + 1) } =
      metaScore b := rfl
    have e4 : visitDateScore now { b with visitCount := some (orZeroVisits b.visitCount + 1) } =
      visitDateScore now b := rfl
    have e6 : tagScore { b with visitCount := some (orZeroVisits b.visitCount + 1) } =
      tagScore b := rfl
    have e7 : categoryScore { b with visitCount := some (orZeroVisits b.visitCount + 1) } =
      categoryScore b := rfl
    have e8 : addedScore now { b with visitCount := some (orZeroVisits b.visitCount + 1) } =
      addedScore now b := rfl
    have e9 : httpsScore { b with visitCount := some (orZeroVisits b.visitCount + 1) } =
      httpsScore b := rfl
    have e10 : brokenPenalty { b with visitCount := some (orZeroVisits b.visitCount + 1) } =
      brokenPenalty b := rfl
    rw [e1, e2, e3, e4, e6, e7, e8, e9, e10]
    have h1 : visitCountScore { b with visitCount := some (orZeroVisits b.visitCount + 1) } =
        ((orZeroVisits b.visitCount : ℚ) + 1) * (1 / 2) := by
      unfold visitCountScore orZeroVisits
      push_cast
      ring
    have h2 : visitCountScore b = (orZeroVisits b.visitCount : ℚ) * (1 / 2) := rfl
    rw [h1, h2]
    linarith
  · unfold scoreOf
    rw [hraw]
    unfold scoreOf at hsc
    rw [hsc]
  · intro hge
    have hge2 : (50 : ℚ) ≤ rawScore now b := by rw [← hsc]; exact hge
    constructor
    · unfold scoreOf
      rw [hraw, max_eq_right (by linarith)]
      unfold scoreOf at hsc
      rw [hsc]
    · unfold scoreOf
      rw [hraw, max_eq_right (by linarith)]
      unfold scoreOf at hsc
      rw [hsc]
      linarith

/-- C6 witness: a record worth exactly 50 points (100 visits) loses exactly
50 points when marked broken, and does not lose from an added tag. -/
theorem C6_witness :
    scoreOf 0 { id := "1", visitCount := some 100 } ≤
      scoreOf 0 { (({ id := "1", visitCount := some 100 } : Bookmark)) with
        tags := some (tagsOf { id := "1", visitCount := some 100 } ++ [{ id := "t" }]) } ∧
    scoreOf 0 { (({ id := "1", visitCount := some 100 } : Bookmark)) with isBroken := true } =
        scoreOf 0 { id := "1", visitCount := some 100 } - 50 ∧
    scoreOf 0 { (({ id := "1", visitCount := some 100 } : Bookmark)) with isBroken := true } <
        scoreOf 0 { id := "1", visitCount := some 100 } := by
  have h := C6_scorer_monotonicity 0 { id := "1", visitCount := some 100 }
    { id := "t" } "d" 5 rfl rfl rfl
  have hge : (50 : ℚ) ≤ scoreOf 0 { id := "1", visitCount := some 100 } := by
    norm_num [scoreOf, rawScore, titleScore, descScore, metaScore, visitDateScore,
      visitCountScore, tagScore, categoryScore, addedScore, httpsScore, brokenPenalty,
      orZeroVisits, truthyStr, max_def]
  exact ⟨h.1, (h.2.2.2.2.2 hge).1, (h.2.2.2.2.2 hge).2⟩

/-! ## C3 — grouping completeness -/

/-- Inserting under an existing key leaves the key list unchanged. -/
theorem addToGroups_keys_mem (gs : List DupGroup) (k : String) (b : Bookmark)
    (h : k ∈ gs.map (fun g => g.normalizedUrl)) :
    (addToGroups gs k b).map (fun g => g.normalizedUrl) =
      gs.map (fun g => g.normalizedUrl) := by
  induction gs with
  | nil => simp at h
  | cons g rest ih =>
    unfold addToGroups
    by_cases hg : g.normalizedUrl = k
    · rw [if_pos hg]
      simp
    · rw [if_neg hg]
      have h2 : k ∈ rest.map (fun g => g.normalizedUrl) := by
        simp only [List.map_cons, List.mem_cons] at h
        rcases h with h3 | h3
        · exact absurd h3.symm hg
        · exact h3
      simp only [List.map_cons]
      rw [ih h2]

/-- Inserting under a fresh key appends it to the key list. -/
theorem addToGroups_keys_notMem (gs : List DupGroup) (k : String) (b : Bookmark)
    (h : k ∉ gs.map (fun g => g.normalizedUrl)) :
    (addToGroups gs k b).map (fun g => g.normalizedUrl) =
      gs.map (fun g => g.normalizedUrl) ++ [k] := by
  induction gs with
  | nil => simp [addToGroups]
  | cons g rest ih =>
    unfold addToGroups
    by_cases hg : g.normalizedUrl = k
    · exact absurd (by simp [hg]) h
    · rw [if_neg hg]
      have h2 : k ∉ rest.map (fun g => g.normalizedUrl) := fun hk => h (by simp [hk])
      simp only [List.map_cons]
      rw [ih h2]
      rfl

/-- After insertion some group carries the inserted key. -/
theorem addToGroups_exists_key (gs : List DupGroup) (k : String) (b : Bookmark) :
    ∃ g2 ∈ addToGroups gs k b, g2.normalizedUrl = k := by
  induction gs with
  | nil =>
    exact ⟨{ id := "dup_" ++ sanitizeKey k, normalizedUrl := k, bookmarks := [b] },
      by simp [addToGroups], rfl⟩
  | cons g rest ih =>
    unfold addToGroups
    by_cases hg : g.normalizedUrl = k
    · rw [if_pos hg]
      exact ⟨_, List.mem_cons_self _ _, hg⟩
    · rw [if_neg hg]
      obtain ⟨g2, hmem, hkey⟩ := ih
      exact ⟨g2, List.mem_cons_of_mem _ hmem, hkey⟩

/-- Groups with a different key survive an insertion untouched. -/
theorem addToGroups_mem_of_ne (gs : List DupGroup) (k : String) (b : Bookmark)
    (g : DupGroup) (hg : g ∈ gs) (hne : g.normalizedUrl ≠ k) :
    g ∈ addToGroups gs k b := by
  induction gs with
  | nil => simp at hg
  | cons g0 rest ih =>
    unfold addToGroups
    by_cases h0 : g0.normalizedUrl = k
    · rw [if_pos h0]
      rcases List.mem_cons.mp hg with h1 | h1
      · exact absurd (h1 ▸ h0) hne
      · exact List.mem_cons_of_mem _ h1
    · rw [if_neg h0]
      rcases List.mem_cons.mp hg with h1 | h1
      · exact h1 ▸ List.mem_cons_self _ _
      · exact List.mem_cons_of_mem _ (ih h1)

/-- Every group after an insertion is an untouched old group with a
different key, the (unique) old group of that key with the record appended,
or a brand-new singleton group under a fresh key. -/
theorem addToGroups_mem_cases (gs : List DupGroup) (k : String) (b : Bookmark)
    (hnd : (gs.map (fun g => g.normalizedUrl)).Nodup)
    (g2 : DupGroup) (h : g2 ∈ addToGroups gs k b) :
    (g2 ∈ gs ∧ g2.normalizedUrl ≠ k) ∨
    (∃ g ∈ gs, g.normalizedUrl = k ∧
      g2 = { g with bookmarks := g.bookmarks ++ [b] }) ∨
    ((k ∉ gs.map (fun g => g.normalizedUrl)) ∧
      g2 = { id := "dup_" ++ sanitizeKey k, normalizedUrl := k, bookmarks := [b] }) := by
  induction gs with
  | nil =>
    right; right
    refine ⟨by simp, ?_⟩
    simpa [addToGroups] using h
  | cons g0 rest ih =>
    have hnd2 : (rest.map (fun g => g.normalizedUrl)).Nodup := by
      simp only [List.map_cons, List.nodup_cons] at hnd
      exact hnd.2
    have hhead : g0.normalizedUrl ∉ rest.map (fun g => g.normalizedUrl) := by
      simp only [List.map_cons, List.nodup_cons] at hnd
      exact hnd.1
    unfold addToGroups at h
    by_cases h0 : g0.normalizedUrl = k
    · rw [if_pos h0] at h
      rcases List.mem_cons.mp h with h1 | h1
      · right; left
        exact ⟨g0, List.mem_cons_self _ _, h0, h1⟩
      · left
        refine ⟨List.mem_cons_of_mem _ h1, ?_⟩
        intro hk
        exact hhead (h0 ▸ hk ▸ List.mem_map_of_mem _ h1)
    · rw [if_neg h0] at h
      rcases List.mem_cons.mp h with h1 | h1
      · left
        exact ⟨h1 ▸ List.mem_cons_self _ _, h1 ▸ h0⟩
      · rcases ih hnd2 h1 with hc | hc | hc
        · exact Or.inl ⟨List.mem_cons_of_mem _ hc.1, hc.2⟩
        · obtain ⟨g, hg, hk, he⟩ := hc
          exact Or.inr (Or.inl ⟨g, List.mem_cons_of_mem _ hg, hk, he⟩)
        · right; right
          refine ⟨?_, hc.2⟩
          simp only [List.map_cons, List.mem_cons, not_or]
          exact ⟨fun he => h0 he.symm, hc.1⟩

/-- The fold invariant of `groupDuplicates`: keys are distinct, every
group's member list is exactly the records of its key in input order, and
every keyed record has a group of its key. -/
theorem groupFold_inv (bs : List Bookmark) :
    ((bs.foldl groupStep []).map (fun g => g.normalizedUrl)).Nodup ∧
    (∀ g ∈ bs.foldl groupStep [], g.bookmarks = keyFilter bs g.normalizedUrl) ∧
    (∀ b0 ∈ bs, ∀ k, groupKey b0 = some k →
      ∃ g ∈ bs.foldl groupStep [], g.normalizedUrl = k) := by
  induction bs using List.reverseRecOn with
  | nil => exact ⟨by simp, by simp, by simp⟩
  | append_singleton l b ih =>
    obtain ⟨ih1, ih2, ih3⟩ := ih
    rw [List.foldl_append]
    simp only [List.foldl_cons, List.foldl_nil]
    cases hb : groupKey b with
    | none =>
      have hstep : groupStep (l.foldl groupStep []) b = l.foldl groupStep [] := by
        unfold groupStep
        rw [hb]
      rw [hstep]
      refine ⟨ih1, ?_, ?_⟩
      · intro g hg
        rw [ih2 g hg]
        unfold keyFilter
        rw [List.filter_append]
        simp [hb]
      · intro b0 hb0 k hk
        rcases List.mem_append.mp hb0 with h1 | h1
        · exact ih3 b0 h1 k hk
        · have he : b0 = b := by simpa using h1
          rw [he, hb] at hk
          simp at hk
    | some k0 =>
      have hstep : groupStep (l.foldl groupStep []) b =
          addToGroups (l.foldl groupStep []) k0 b := by
        unfold groupStep
        rw [hb]
      rw [hstep]
      refine ⟨?_, ?_, ?_⟩
      · by_cases hmem : k0 ∈ (l.foldl groupStep []).map (fun g => g.normalizedUrl)
        · rw [addToGroups_keys_mem _ _ _ hmem]
          exact ih1
        · rw [addToGroups_keys_notMem _ _ _ hmem]
          have hc := List.Nodup.concat hmem ih1
          rwa [List.concat_eq_append] at hc
      · intro g2 hg2
        rcases addToGroups_mem_cases _ _ _ ih1 g2 hg2 with hc | hc | hc
        · obtain ⟨hmem, hne⟩ := hc
          rw [ih2 g2 hmem]
          unfold keyFilter
          rw [List.filter_append]
          have hne2 : ¬ k0 = g2.normalizedUrl := fun h2 => hne h2.symm
          have hf : List.filter (fun b2 => decide (groupKey b2 = some g2.normalizedUrl)) [b]
              = [] := by
            simp [hb, hne2]
          rw [hf, List.append_nil]
        · obtain ⟨g, hg, hk, he⟩ := hc
          have hkey2 : g2.normalizedUrl = k0 := by rw [he]; exact hk
          rw [he]
          show g.bookmarks ++ [b] = keyFilter (l ++ [b]) _
          unfold keyFilter
          rw [List.filter_append]
          have hf : List.filter (fun b2 => decide (groupKey b2 = some g.normalizedUrl)) [b]
              = [b] := by
            simp [hb, hk]
          rw [hf]
          have := ih2 g hg
          unfold keyFilter at this
          rw [← this]
        · obtain ⟨hnotmem, he⟩ := hc
          have hnil : keyFilter l k0 = [] := by
            unfold keyFilter
            rw [List.filter_eq_nil_iff]
            intro b0 hb0
            simp only [decide_eq_true_eq]
            intro hk0
            obtain ⟨g, hg, hgk⟩ := ih3 b0 hb0 k0 hk0
            exact hnotmem (hgk ▸ List.mem_map_of_mem _ hg)
          rw [he]
          show [b] = keyFilter (l ++ [b]) k0
          unfold keyFilter
          rw [List.filter_append]
          have hf : List.filter (fun b2 => decide (groupKey b2 = some k0)) [b] = [b] := by
            simp [hb]
          rw [hf]
          unfold keyFilter at hnil
          rw [hnil, List.nil_append]
      · intro b0 hb0 k hk
        rcases List.mem_append.mp hb0 with h1 | h1
        · obtain ⟨g, hg, hgk⟩ := ih3 b0 h1 k hk
          by_cases hkk : k = k0
          · subst hkk
            exact addToGroups_exists_key _ _ _
          · exact ⟨g, addToGroups_mem_of_ne _ _ _ g hg (hgk ▸ hkk), hgk⟩
        · have he : b0 = b := by simpa using h1
          rw [he, hb] at hk
          have : k = k0 := by injection hk.symm
          subst this
          exact addToGroups_exists_key _ _ _

/-- C3: `group` returns exactly the groups of size ≥ 2 under normalized-URL
equality: every returned group has at least two members; a record lacking a
url is in no group; a record whose normalized url is shared by at least two
records is in exactly one group; a record with a unique normalized url is in
no group. -/
theorem C3_grouping_completeness (bs : List Bookmark) :
    (∀ g ∈ groupDuplicates bs, 2 ≤ g.bookmarks.length) ∧
    ∀ b ∈ bs,
      (groupKey b = none → ∀ g ∈ groupDuplicates bs, b ∉ g.bookmarks) ∧
      ∀ k, groupKey b = some k →
        ((2 ≤ (keyFilter bs k).length →
          ∃! g, g ∈ groupDuplicates bs ∧ b ∈ g.bookmarks) ∧
         ((keyFilter bs k).length = 1 →
          ∀ g ∈ groupDuplicates bs, b ∉ g.bookmarks)) := by
  obtain ⟨inv1, inv2, inv3⟩ := groupFold_inv bs
  have hsub : ∀ g ∈ groupDuplicates bs,
      g ∈ bs.foldl groupStep [] ∧ 1 < g.bookmarks.length := by
    intro g hg
    unfold groupDuplicates at hg
    have := List.mem_filter.mp hg
    exact ⟨this.1, by simpa using this.2⟩
  refine ⟨?_, ?_⟩
  · intro g hg
    exact (hsub g hg).2
  intro b hb
  constructor
  · intro hnone g hg hbg
    have hbk := inv2 g (hsub g hg).1
    rw [hbk] at hbg
    unfold keyFilter at hbg
    have := (List.mem_filter.mp hbg).2
    rw [hnone] at this
    simp at this
  · intro k hk
    constructor
    · intro hlen
      obtain ⟨g, hgmem, hgkey⟩ := inv3 b hb k hk
      have hbooks : g.bookmarks = keyFilter bs k := by
        rw [inv2 g hgmem, hgkey]
      have hbin : b ∈ g.bookmarks := by
        rw [hbooks]
        unfold keyFilter
        exact List.mem_filter.mpr ⟨hb, by simp [hk]⟩
      have hgdup : g ∈ groupDuplicates bs := by
        unfold groupDuplicates
        refine List.mem_filter.mpr ⟨hgmem, ?_⟩
        simp only [decide_eq_true_eq]
        rw [hbooks]
        omega
      refine ⟨g, ⟨hgdup, hbin⟩, ?_⟩
      intro g2 hg2
      obtain ⟨hg2dup, hbin2⟩ := hg2
      have hg2mem := (hsub g2 hg2dup).1
      have hbooks2 := inv2 g2 hg2mem
      rw [hbooks2] at hbin2
      unfold keyFilter at hbin2
      have hkey2 : groupKey b = some g2.normalizedUrl := by
        have := (List.mem_filter.mp hbin2).2
        simpa using this
      have hkeq : g2.normalizedUrl = g.normalizedUrl := by
        rw [hgkey]
        rw [hk] at hkey2
        injection hkey2.symm
      exact List.inj_on_of_nodup_map inv1 hg2mem hgmem
        (by simpa using hkeq)
    · intro hone g hg hbg
      have hgmem := (hsub g hg).1
      have hbooks := inv2 g hgmem
      rw [hbooks] at hbg
      unfold keyFilter at hbg
      have hkey2 : groupKey b = some g.normalizedUrl := by
        have := (List.mem_filter.mp hbg).2
        simpa using this
      have hkeq : g.normalizedUrl = k := by
        rw [hk] at hkey2
        injection hkey2.symm
      have hlen := (hsub g hg).2
      rw [hbooks, hkeq] at hlen
      unfold keyFilter at hlen hone
      omega

/-- C3 witness: two records normalizing to `a.com/x`, one record without a
url, one with a unique url — the first record lies in exactly one returned
group. -/
theorem C3_witness :
    ∃! g, g ∈ groupDuplicates
        [{ id := "1", url := some "https://a.com/x" },
         { id := "2", url := some "http://a.com/x/" },
         { id := "3" },
         { id := "4", url := some "https://b.com/y" }] ∧
      ({ id := "1", url := some "https://a.com/x" } : Bookmark) ∈ g.bookmarks :=
  (((C3_grouping_completeness _).2 { id := "1", url := some "https://a.com/x" }
      (by decide)).2 "a.com/x" (by decide)).1 (by decide)

/-! ## C8 — the merge payload -/

/-- The sort is empty only on the empty list. -/
theorem sortDescBy_eq_nil_iff {α : Type} (key : α → ℚ) (l : List α) :
    sortDescBy key l = [] ↔ l = [] := by
  cases l with
  | nil => simp [sortDescBy]
  | cons x xs =>
    constructor
    · intro h
      exact absurd h (sortDescBy_ne_nil key x xs)
    · intro h
      simp at h

/-- `mergeTitles` returns the first-seen longest non-blank title. -/
theorem mergeTitles_eq_spec (bs : List Bookmark) :
    mergeTitles bs = specMergeTitle bs := by
  unfold mergeTitles specMergeTitle
  cases hs : sortDescBy (fun t => (t.length : ℚ))
      ((bs.map (fun b => b.title)).filterMap fun o =>
        match o with
        | none => none
        | some t => if jsTrim t ≠ "" then some t else none) with
  | nil =>
    rw [sortDescBy_eq_nil_iff] at hs
    rw [hs]
    rfl
  | cons t tl =>
    have hh := sortDescBy_head (fun t => (t.length : ℚ))
      ((bs.map (fun b => b.title)).filterMap fun o =>
        match o with
        | none => none
        | some t => if jsTrim t ≠ "" then some t else none)
    rw [hs] at hh
    simp only [List.head?_cons] at hh
    simp only [hs]
    rw [← hh]
    rfl

/-- `mergeDescriptions` joins the first-occurrence dedup of the non-blank
descriptions. -/
theorem mergeDescriptions_eq_spec (bs : List Bookmark) :
    mergeDescriptions bs = specMergeDescription bs := by
  unfold mergeDescriptions specMergeDescription
  cases hs : (bs.map (fun b => b.description)).filterMap
      (fun o =>
        match o with
        | none => none
        | some d => if jsTrim d ≠ "" then some d else none) with
  | nil => rfl
  | cons d ds => rfl

/-- `addTags` is the segment-wise left fold of single-tag insertion: the
collected list grows by exactly the not-yet-seen tags, in order. -/
theorem addTags_eq (ts : List Tag) : ∀ (acc : List Tag) (seen : List String),
    (∀ x, seen.contains x = acc.any (fun t2 => decide (t2.id = x))) →
    addTags acc ts = acc ++ dedupTagsAux seen ts := by
  induction ts with
  | nil =>
    intro acc seen hcompat
    simp [addTags, dedupTagsAux]
  | cons t ts2 ih =>
    intro acc seen hcompat
    unfold addTags dedupTagsAux
    rw [← hcompat t.id]
    cases hc : seen.contains t.id with
    | true =>
      simp only [hc, if_true]
      exact ih acc seen hcompat
    | false =>
      simp only [hc, Bool.false_eq_true, if_false]
      rw [ih (acc ++ [t]) (t.id :: seen) ?_]
      · simp
      · intro x
        by_cases hx : t.id = x
        · subst hx
          simp
        · have h1 : (x == t.id) = false :=
            beq_eq_false_iff_ne.mpr (fun h => hx h.symm)
          have h2 : decide (t.id = x) = false := decide_eq_false hx
          simp only [List.contains_cons, h1, Bool.false_or, List.any_append,
            List.any_cons, List.any_nil, h2, Bool.or_false]
          exact hcompat x

/-- Inserting a concatenation is inserting the parts in sequence. -/
theorem addTags_append (l1 l2 : List Tag) : ∀ acc : List Tag,
    addTags acc (l1 ++ l2) = addTags (addTags acc l1) l2 := by
  induction l1 with
  | nil => intro acc; rfl
  | cons t l1 ih =>
    intro acc
    have he : addTags acc ((t :: l1) ++ l2) =
        if (acc.any fun t2 => decide (t2.id = t.id)) = true then addTags acc (l1 ++ l2)
        else addTags (acc ++ [t]) (l1 ++ l2) := rfl
    have he2 : addTags acc (t :: l1) =
        if (acc.any fun t2 => decide (t2.id = t.id)) = true then addTags acc l1
        else addTags (acc ++ [t]) l1 := rfl
    rw [he, he2]
    by_cases hc : (acc.any fun t2 => decide (t2.id = t.id)) = true
    · rw [if_pos hc, if_pos hc, ih]
    · rw [if_neg hc, if_neg hc, ih]

/-- The member-wise tag fold of `mergeTags` equals one insertion pass over
the concatenation of all tag lists. -/
theorem mergeTags_fold_flatten (bss : List Bookmark) : ∀ acc : List Tag,
    bss.foldl (fun a b => addTags a (tagsOf b)) acc =
      addTags acc (bss.map tagsOf).flatten := by
  induction bss with
  | nil => intro acc; rfl
  | cons b bss2 ih =>
    intro acc
    simp only [List.foldl_cons, List.map_cons, List.flatten_cons]
    rw [addTags_append]
    exact ih _

/-- `mergeTags` is the id-deduplicated union of the members' tags in
first-seen order. -/
theorem mergeTags_eq_spec (bs : List Bookmark) :
    mergeTags bs = specMergeTags bs := by
  unfold mergeTags specMergeTags
  rw [mergeTags_fold_flatten bs []]
  rw [addTags_eq _ [] [] (fun x => rfl)]
  rfl

/-- A running sum by `foldl` is the sum of the mapped list. -/
theorem foldl_add_eq_sum (f : Bookmark → ℕ) (l : List Bookmark) : ∀ n : ℕ,
    l.foldl (fun s b => s + f b) n = n + (l.map f).sum := by
  induction l with
  | nil => intro n; simp
  | cons b l2 ih =>
    intro n
    simp only [List.foldl_cons, List.map_cons, List.sum_cons]
    rw [ih]
    omega

/-- Folding `max` from an accumulator distributes over the accumulator. -/
theorem foldl_max_comm (ys : List ℚ) : ∀ a b : ℚ,
    ys.foldl max (max a b) = max a (ys.foldl max b) := by
  induction ys with
  | nil => intro a b; rfl
  | cons c ys2 ih =>
    intro a b
    simp only [List.foldl_cons]
    rw [max_assoc, ih]

/-- The first maximum of a list of values is its running maximum. -/
theorem firstMaxBy_id_eq_maxRecent (l : List ℚ) :
    firstMaxBy (fun q => q) l = maxRecent l := by
  induction l with
  | nil => rfl
  | cons x xs ih =>
    unfold firstMaxBy maxRecent
    rw [ih]
    cases xs with
    | nil => rfl
    | cons y ys =>
      show (if (ys.foldl max y) > x then some (ys.foldl max y) else some x) =
        some ((y :: ys).foldl max x)
      have hstep : (y :: ys).foldl max x = max x (ys.foldl max y) := by
        simp only [List.foldl_cons]
        exact foldl_max_comm ys x y
      rw [hstep]
      rcases lt_trichotomy x (ys.foldl max y) with hlt | heq | hgt
      · rw [if_pos hlt, max_eq_right (le_of_lt hlt)]
      · rw [heq]
        simp
      · rw [if_neg (not_lt.mpr (le_of_lt hgt)), max_eq_left (le_of_lt hgt)]

/-- `mergeMetadata` realizes the spec's shallow merge with the derived
`totalVisits` sum and most-recent `lastVisited`. -/
theorem mergeMetadata_eq_spec (bs : List Bookmark) :
    mergeMetadata bs = specMergeMetadata bs := by
  unfold mergeMetadata specMergeMetadata
  rw [foldl_add_eq_sum (fun b => orZeroVisits b.visitCount) bs 0]
  have hmr : (sortDescBy (fun q => q) (bs.filterMap (fun b => b.dateVisited))).head? =
      maxRecent (bs.filterMap (fun b => b.dateVisited)) := by
    rw [sortDescBy_head]
    exact firstMaxBy_id_eq_maxRecent _
  cases hs : sortDescBy (fun q => q) (bs.filterMap (fun b => b.dateVisited)) with
  | nil =>
    rw [hs] at hmr
    simp only [List.head?_nil] at hmr
    rw [← hmr]
    simp
  | cons v vs =>
    rw [hs] at hmr
    simp only [List.head?_cons] at hmr
    rw [← hmr]
    simp

/-- C8 counterexample: a member whose only title is whitespace.  The claim's
"longest non-empty title" is the whitespace title, but the source filters on
the TRIMMED length and returns `""`. -/
theorem C8_counterexample :
    (recommendAction 0 [{ id := "1", title := some "   " }]).map
        (fun r => r.merge.title) = some "" ∧
    specMergeTitleStated [{ id := "1", title := some "   " }] = "   " ∧
    ("" : String) ≠ "   " := by
  refine ⟨?_, by decide, by decide⟩
  norm_num [recommendAction, scoreBookmarks, sortDescBy, insertDescBy,
    mergeTitles, (by decide : jsTrim "   " = "")]

/-- C8 (amended): for every non-empty duplicate group the merge payload has:
`title` the longest non-BLANK member title (non-empty after trimming
whitespace; ties by encounter order); `description` all distinct non-blank
member descriptions joined with " | "; `tags` the union of member tags
deduplicated by tag id in first-seen order; `metadata` the left-to-right
shallow merge of the members' `meta` maps with `totalVisits` set to the sum
of all visit counts and `lastVisited` set to the most recent `dateVisited`
among members that have one (that update omitted when none do). -/
theorem C8_recommend_merge_payload (now : ℚ) (bs : List Bookmark) (h : bs ≠ []) :
    (recommendAction now bs).map (fun r => r.merge) = some
      { title := specMergeTitle bs
        description := specMergeDescription bs
        tags := specMergeTags bs
        metadata := specMergeMetadata bs } := by
  cases bs with
  | nil => exact absurd rfl h
  | cons b bs0 =>
    cases hs : sortDescBy (fun s => s.score) (scoreBookmarks now (b :: bs0)) with
    | nil => exact absurd hs (sortDescBy_ne_nil _ _ _)
    | cons best tl =>
      rw [recommendAction_of_sorted now _ best tl hs]
      show some _ = some _
      rw [mergeTitles_eq_spec, mergeDescriptions_eq_spec, mergeTags_eq_spec,
        mergeMetadata_eq_spec]

/-- C8 witness: a concrete two-member group exercising every merge field. -/
theorem C8_witness :
    (recommendAction 0
        [{ id := "1", title := some "Short", description := some "d1",
           visitCount := some 2, dateVisited := some 10,
           tags := some [{ id := "a" }],
           meta := some [("k1", MetaVal.str "v1")] },
         { id := "2", title := some "A much longer title", description := some "d2",
           visitCount := some 3, dateVisited := some 20,
           tags := some [{ id := "a" }, { id := "b" }],
           meta := some [("k1", MetaVal.str "v2"), ("k2", MetaVal.str "w")] }]).map
        (fun r => r.merge) = some
      { title := specMergeTitle
          [{ id := "1", title := some "Short", description := some "d1",
             visitCount := some 2, dateVisited := some 10,
             tags := some [{ id := "a" }],
             meta := some [("k1", MetaVal.str "v1")] },
           { id := "2", title := some "A much longer title", description := some "d2",
             visitCount := some 3, dateVisited := some 20,
             tags := some [{ id := "a" }, { id := "b" }],
             meta := some [("k1", MetaVal.str "v2"), ("k2", MetaVal.str "w")] }]
        description := specMergeDescription
          [{ id := "1", title := some "Short", description := some "d1",
             visitCount := some 2, dateVisited := some 10,
             tags := some [{ id := "a" }],
             meta := some [("k1", MetaVal.str "v1")] },
           { id := "2", title := some "A much longer title", description := some "d2",
             visitCount := some 3, dateVisited := some 20,
             tags := some [{ id := "a" }, { id := "b" }],
             meta := some [("k1", MetaVal.str "v2"), ("k2", MetaVal.str "w")] }]
        tags := specMergeTags
          [{ id := "1", title := some "Short", description := some "d1",
             visitCount := some 2, dateVisited := some 10,
             tags := some [{ id := "a" }],
             meta := some [("k1", MetaVal.str "v1")] },
           { id := "2", title := some "A much longer title", description := some "d2",
             visitCount := some 3, dateVisited := some 20,
             tags := some [{ id := "a" }, { id := "b" }],
             meta := some [("k1", MetaVal.str "v2"), ("k2", MetaVal.str "w")] }]
        metadata := specMergeMetadata
          [{ id := "1", title := some "Short", description := some "d1",
             visitCount := some 2, dateVisited := some 10,
             tags := some [{ id := "a" }],
             meta := some [("k1", MetaVal.str "v1")] },
           { id := "2", title := some "A much longer title", description := some "d2",
             visitCount := some 3, dateVisited := some 20,
             tags := some [{ id := "a" }, { id := "b" }],
             meta := some [("k1", MetaVal.str "v2"), ("k2", MetaVal.str "w")] }] } :=
  C8_recommend_merge_payload 0 _ (by decide)

/-! ## C10 — autoResolve marks exactly the non-keeper members -/

/-- Accumulating appends over a fold is flattening the mapped lists. -/
theorem foldl_append_eq_flatten {α β : Type} (f : α → List β) (l : List α) :
    ∀ acc : List β, l.foldl (fun a x => a ++ f x) acc = acc ++ (l.map f).flatten := by
  induction l with
  | nil => intro acc; simp
  | cons x l2 ih =>
    intro acc
    simp only [List.foldl_cons, List.map_cons, List.flatten_cons]
    rw [ih, List.append_assoc]

/-- Every mark a group contributes targets a non-keeper and points at the
keeper. -/
theorem marksOfGroup_spec (now : ℚ) (g : DupGroup) (keeper : Bookmark)
    (hlen : 1 < g.bookmarks.length) (hk : keeperOf now g = some keeper) :
    marksOfGroup now g =
      (g.bookmarks.filter (fun b => b.id ≠ keeper.id)).map
        (fun b => { targetId := b.id, duplicateOf := keeper.id }) := by
  unfold marksOfGroup
  rw [if_neg (by omega), hk]

/-- A contributed mark never targets its own `duplicateOf`. -/
theorem marksOfGroup_ne (now : ℚ) (g : DupGroup) (u : MarkUpdate)
    (hu : u ∈ marksOfGroup now g) : u.targetId ≠ u.duplicateOf := by
  unfold marksOfGroup at hu
  split at hu
  · simp at hu
  · cases hkk : keeperOf now g with
    | none => rw [hkk] at hu; simp at hu
    | some keeper =>
      rw [hkk] at hu
      obtain ⟨b, hbmem, hbu⟩ := List.mem_map.mp hu
      have hbne : b.id ≠ keeper.id := by
        have := (List.mem_filter.mp hbmem).2
        simpa using this
      rw [← hbu]
      exact hbne

/-- C10: `autoResolve` marks, in every processed group, exactly the members
whose id differs from the selected keeper's id — each with
`isDuplicate = true` and `duplicateOf` the keeper's id — and never marks the
keeper; hence no issued update sets a record's `duplicateOf` to that
record's own id. -/
theorem C10_autoresolve_marks (now : ℚ) (bs : List Bookmark) :
    (∀ u ∈ autoResolveMarks now bs, u.targetId ≠ u.duplicateOf) ∧
    (∀ g ∈ groupDuplicates bs, ∀ keeper, keeperOf now g = some keeper →
      marksOfGroup now g =
        (g.bookmarks.filter (fun b => b.id ≠ keeper.id)).map
          (fun b => { targetId := b.id, duplicateOf := keeper.id }) ∧
      (∀ u ∈ marksOfGroup now g, u.duplicateOf = keeper.id ∧ u.targetId ≠ keeper.id) ∧
      (∀ b ∈ g.bookmarks, b.id ≠ keeper.id →
        ({ targetId := b.id, duplicateOf := keeper.id } : MarkUpdate) ∈
          autoResolveMarks now bs)) := by
  have hflat : autoResolveMarks now bs =
      ((groupDuplicates bs).map (marksOfGroup now)).flatten := by
    unfold autoResolveMarks
    rw [foldl_append_eq_flatten]
    rfl
  constructor
  · intro u hu
    rw [hflat] at hu
    obtain ⟨lu, hlu, hulu⟩ := List.mem_flatten.mp hu
    obtain ⟨g, hg, hgl⟩ := List.mem_map.mp hlu
    exact marksOfGroup_ne now g u (hgl ▸ hulu)
  · intro g hg keeper hk
    have hlen : 1 < g.bookmarks.length := by
      unfold groupDuplicates at hg
      have := (List.mem_filter.mp hg).2
      simpa using this
    have hspec := marksOfGroup_spec now g keeper hlen hk
    refine ⟨hspec, ?_, ?_⟩
    · intro u hu
      rw [hspec] at hu
      obtain ⟨b, hbmem, hbu⟩ := List.mem_map.mp hu
      have hbne : b.id ≠ keeper.id := by
        have := (List.mem_filter.mp hbmem).2
        simpa using this
      rw [← hbu]
      exact ⟨rfl, hbne⟩
    · intro b hbmem hbne
      rw [hflat]
      refine List.mem_flatten.mpr ⟨marksOfGroup now g, List.mem_map_of_mem _ hg, ?_⟩
      rw [hspec]
      exact List.mem_map.mpr ⟨b, List.mem_filter.mpr ⟨hbmem, by simpa using hbne⟩, rfl⟩

/-- C10 witness: in the concrete two-member duplicate group the keeper is
the first (https) record and the single issued mark targets the second with
`duplicateOf` the keeper's id — which differs from the target's own id. -/
theorem C10_witness :
    ({ targetId := "2", duplicateOf := "1" } : MarkUpdate) ∈
      autoResolveMarks 0
        [{ id := "1", url := some "https://a.com/x" },
         { id := "2", url := some "http://a.com/x/" }] ∧
    ("2" : String) ≠ "1" := by
  constructor
  · have hg : ({ id := "dup_a_com_x", normalizedUrl := "a.com/x",
                 bookmarks := [{ id := "1", url := some "https://a.com/x" },
                               { id := "2", url := some "http://a.com/x/" }] } : DupGroup) ∈
        groupDuplicates [{ id := "1", url := some "https://a.com/x" },
          { id := "2", url := some "http://a.com/x/" }] := by decide
    have hk : keeperOf 0 { id := "dup_a_com_x", normalizedUrl := "a.com/x",
                           bookmarks := [{ id := "1", url := some "https://a.com/x" },
                                         { id := "2", url := some "http://a.com/x/" }] } =
        some { id := "1", url := some "https://a.com/x" } := by
      norm_num [keeperOf, recommendAction, scoreBookmarks, sortDescBy, insertDescBy,
        scoreOf, rawScore, titleScore, descScore, metaScore, visitDateScore,
        visitCountScore, tagScore, categoryScore, addedScore, httpsScore, brokenPenalty,
        orZeroVisits, truthyStr, List.find?,
        (by decide : jsStartsWith "https://a.com/x" "https://" = true),
        (by decide : jsStartsWith "http://a.com/x/" "https://" = false)]
    exact ((C10_autoresolve_marks 0 _).2 _ hg _ hk).2.2
      { id := "2", url := some "http://a.com/x/" } (by decide) (by decide)
  · decide
